import Mathlib

/-!
Shallow embedding of the hexrod CNC converter sources
(`hollowing.py` and `griff_generator.py`) over exact real arithmetic,
together with theorems settling the specification claims.

Python floats are modelled as real numbers; Python `None` results become
`Option`; the `while` loops of the sources become well-founded recursions
whose measure counts the remaining iterations.  The textual G-code lines
are modelled as inductive motion directives (comment/header lines of the
sources carry no motion and are not modelled).
-/

/-! ### Hollowing parameters (module constants of `hollowing.py`) -/

def TIP_SOLID_MM : ℝ := 80

def BUTT_SOLID_MM : ℝ := 60

def STEG_ABSTAND_MM : ℝ := 150

def STEG_BREITE_MM : ℝ := 12

def UEBERGANG_MM : ℝ := 8

def WANDSTAERKE_MM : ℝ := 0.4

def ZOLL_ZU_MM : ℝ := 25.4

def FEED_RATE : ℝ := 200

def Z_RAPID : ℝ := 3

def SCHRITT_MM : ℝ := 1

/-- The taper table of `hollowing.py`: `(station_inches, flat_to_flat_dimension_mm)`. -/
def taper_data : List (ℝ × ℝ) :=
  [(0, 1.52), (5, 1.78), (10, 2.03), (15, 2.29), (20, 2.54), (25, 2.79),
   (30, 3.05), (35, 3.30), (40, 3.56), (45, 3.81), (50, 4.06), (55, 4.32),
   (60, 4.57)]

/-! ### Functions of `hollowing.py` -/

/-- Python `interpolate_dimension(x_mm, stations)`: linear interpolation of the
dimension at any X position; `None` (here `none`) outside the table span.
The Python `for i in range(len(stations) - 1)` loop over consecutive pairs
becomes recursion over the list. -/
noncomputable def interpolate_dimension (x_mm : ℝ) : List (ℝ × ℝ) → Option ℝ
  | (x0, d0) :: (x1, d1) :: rest =>
      if x0 ≤ x_mm ∧ x_mm ≤ x1 then
        some (d0 + (x_mm - x0) / (x1 - x0) * (d1 - d0))
      else interpolate_dimension x_mm ((x1, d1) :: rest)
  | _ => none

/-- Python `sine_transition(t)`: smooth sine transition, `0.5 * (1 - cos(pi * t))`. -/
noncomputable def sine_transition (t : ℝ) : ℝ :=
  0.5 * (1 - Real.cos (Real.pi * t))

/-- The glue-land part of `compute_factor`: the Python `for steg_center in
steg_positions` loop with its three first-match branches, falling through to
`1` when no glue land's influence region contains the position. -/
noncomputable def steg_factor (x_mm : ℝ) : List ℝ → ℝ
  | [] => 1
  | steg_center :: rest =>
      let steg_l := steg_center - STEG_BREITE_MM / 2
      let steg_r := steg_center + STEG_BREITE_MM / 2
      let entry_l := steg_l - UEBERGANG_MM
      let exit_r := steg_r + UEBERGANG_MM
      if steg_l ≤ x_mm ∧ x_mm ≤ steg_r then 0
      else if entry_l ≤ x_mm ∧ x_mm < steg_l then
        1 - sine_transition ((x_mm - entry_l) / UEBERGANG_MM)
      else if steg_r < x_mm ∧ x_mm ≤ exit_r then
        sine_transition ((x_mm - steg_r) / UEBERGANG_MM)
      else steg_factor x_mm rest

/-- Python `compute_factor(x_mm, x_total, steg_positions)`: suppression factor in
`[0,1]`; `0` = do not mill (solid section or glue land), `1` = full hollow
depth, with smooth sine transitions. -/
noncomputable def compute_factor (x_mm x_total : ℝ) (steg_positions : List ℝ) : ℝ :=
  if x_mm < TIP_SOLID_MM then
    if x_mm < TIP_SOLID_MM - UEBERGANG_MM then 0
    else sine_transition ((x_mm - (TIP_SOLID_MM - UEBERGANG_MM)) / UEBERGANG_MM)
  else
    if x_total - BUTT_SOLID_MM < x_mm then
      if x_total - BUTT_SOLID_MM + UEBERGANG_MM < x_mm then 0
      else 1 - sine_transition ((x_mm - (x_total - BUTT_SOLID_MM)) / UEBERGANG_MM)
    else
      steg_factor x_mm steg_positions

/-- Measure decrease for the `while` loops: one unit of progress. -/
theorem ceil_sub_one_lt {d : ℝ} (hd : 0 < d) : Nat.ceil (d - 1) < Nat.ceil d := by
  have h1 : 1 ≤ Nat.ceil d := Nat.one_le_ceil_iff.mpr hd
  have h2 : Nat.ceil (d - 1) ≤ Nat.ceil d - 1 := by
    rw [Nat.ceil_le]
    have hc : ((Nat.ceil d - 1 : ℕ) : ℝ) = (Nat.ceil d : ℝ) - 1 := by
      push_cast [Nat.cast_sub h1]
      ring
    rw [hc]
    have := Nat.le_ceil d
    linarith
  omega

/-- The `while x < hohl_end` loop of `compute_steg_positions`, collecting
`x, x + STEG_ABSTAND_MM, …` while strictly below `hohl_end`. -/
noncomputable def steg_loop (hohl_end : ℝ) (x : ℝ) : List ℝ :=
  if x < hohl_end then x :: steg_loop hohl_end (x + STEG_ABSTAND_MM)
  else []
termination_by Nat.ceil ((hohl_end - x) / STEG_ABSTAND_MM)
decreasing_by
  have hS : (0:ℝ) < STEG_ABSTAND_MM := by norm_num [STEG_ABSTAND_MM]
  have hrw : (hohl_end - (x + STEG_ABSTAND_MM)) / STEG_ABSTAND_MM
      = (hohl_end - x) / STEG_ABSTAND_MM - 1 := by
    rw [show hohl_end - (x + STEG_ABSTAND_MM) = (hohl_end - x) - STEG_ABSTAND_MM by ring,
      sub_div, div_self (ne_of_gt hS)]
  rw [hrw]
  exact ceil_sub_one_lt (div_pos (by linarith) hS)

/-- Python `compute_steg_positions(x_total)`: distribute glue lands evenly in the
hollow section, starting one pitch after the tip solid section. -/
noncomputable def compute_steg_positions (x_total : ℝ) : List ℝ :=
  steg_loop (x_total - BUTT_SOLID_MM) (TIP_SOLID_MM + STEG_ABSTAND_MM)

/-! ### Main-script data of `hollowing.py` -/

/-- Script value `stations_mm`: the taper table converted from inches to millimeters. -/
def stations_mm : List (ℝ × ℝ) :=
  taper_data.map (fun p => (p.1 * ZOLL_ZU_MM, p.2))

/-- Script value `x_total = stations_mm[-1][0]`. -/
def x_total : ℝ := ((stations_mm.getLast?).getD (0, 0)).1

/-- Script value `steg_positions = compute_steg_positions(x_total)`. -/
noncomputable def steg_positions : List ℝ := compute_steg_positions x_total

/-- The toolpath-building `while True` loop: clamp the position to
`x_total`, break on a failed interpolation, emit `(x, z)` with
`z = -max_depth * factor`, break once `x_total` is reached, else advance by
`step`.  The loop is parameterised by the table, total length, glue-land
positions and (positive) step so the claims can quantify over them; the
script instantiates it at `stations_mm`, `x_total`, `steg_positions`,
`SCHRITT_MM` from start `0`. -/
noncomputable def build_path (stations : List (ℝ × ℝ)) (xt : ℝ) (stegs : List ℝ)
    (step : ℝ) (hstep : 0 < step) (x : ℝ) : List (ℝ × ℝ) :=
  match interpolate_dimension (min x xt) stations with
  | none => []
  | some dim =>
      let max_depth := max 0 (dim / 2 - WANDSTAERKE_MM)
      let factor := compute_factor (min x xt) xt stegs
      let z := -max_depth * factor
      if xt ≤ min x xt then [(min x xt, z)]
      else (min x xt, z) :: build_path stations xt stegs step hstep (min x xt + step)
termination_by Nat.ceil ((xt - x) / step)
decreasing_by
  rename_i hlt
  rw [not_le] at hlt
  have hxlt : x < xt := by
    by_contra hc
    push_neg at hc
    rw [min_eq_right hc] at hlt
    exact lt_irrefl xt hlt
  rw [min_eq_left hxlt.le] at hlt ⊢
  have hrw : (xt - (x + step)) / step = (xt - x) / step - 1 := by
    rw [show xt - (x + step) = (xt - x) - step by ring, sub_div,
      div_self (ne_of_gt hstep)]
  rw [hrw]
  exact ceil_sub_one_lt (div_pos (by linarith) hstep)

/-- Script value `path`: the toolpath of the script. -/
noncomputable def path : List (ℝ × ℝ) :=
  build_path stations_mm x_total steg_positions SCHRITT_MM (by norm_num [SCHRITT_MM]) 0

/-! ### G-code emission of `hollowing.py` (motion directives only) -/

/-- Motion directives emitted by `hollowing.py`: `G0 Z…`, `G0 X…`,
`G1 Z… F…`, `G1 X… Z… F…`, `M2`. -/
inductive HDirective where
  | rapidZ (z : ℝ)
  | rapidX (x : ℝ)
  | feedZ (z f : ℝ)
  | feedXZ (x z f : ℝ)
  | programEnd

/-- The `for x, z in path` emission loop with its `cutting` state flag. -/
noncomputable def gcode_loop : List (ℝ × ℝ) → Bool → List HDirective
  | [], _ => []
  | (x, z) :: rest, cutting =>
      if z < -0.01 then
        if cutting then HDirective.feedXZ x z FEED_RATE :: gcode_loop rest true
        else HDirective.rapidX x :: HDirective.feedZ z FEED_RATE :: gcode_loop rest true
      else
        if cutting then HDirective.feedXZ x z FEED_RATE :: gcode_loop rest false
        else gcode_loop rest false

/-- The full motion-directive stream of `hollowing.py`: initial rapids
(`G0 Z3`, `G0 X0`), the emission loop starting with `cutting = False`, and
the closing retract (`G0 Z3`), home (`G0 X0`) and `M2`. -/
noncomputable def emit_gcode (p : List (ℝ × ℝ)) : List HDirective :=
  [HDirective.rapidZ Z_RAPID, HDirective.rapidX 0] ++ gcode_loop p false ++
    [HDirective.rapidZ Z_RAPID, HDirective.rapidX 0, HDirective.programEnd]

/-! ### Grip generator (`griff_generator.py`) -/

def GRIFF_LAENGE_MM : ℝ := 200

def X_START_MM : ℝ := 0

def ROHLING_RADIUS : ℝ := 15

def FRAESER_RADIUS : ℝ := 3

def ZIEL_RADIUS : ℝ := 10

def RADIUS_TIP : ℝ := 8

def RADIUS_BUTT : ℝ := 13

def POLYGON_SEITEN : ℕ := 8

def POLYGON_UMKREIS : ℝ := 11

def FEED_CUT : ℕ := 150

def ROTATIONS_PER_MM : ℝ := 3

/-- Safe height `Z_FREIFAHRT = ROHLING_RADIUS + FRAESER_RADIUS + 2`. -/
def Z_FREIFAHRT : ℝ := ROHLING_RADIUS + FRAESER_RADIUS + 2

/-- The two continuous-turning values of the `GRIFFTYP` switch
(`"polygon"` selects `generate_polygon` instead). -/
inductive GriffTyp where
  | zylindrisch
  | konisch

/-- Python `z_for_radius(target_r) = target_r + FRAESER_RADIUS`. -/
def z_for_radius (target_r : ℝ) : ℝ := target_r + FRAESER_RADIUS

/-- Python `conical_radius(x_mm)`: linearly interpolated radius for the conical grip. -/
noncomputable def conical_radius (x_mm : ℝ) : ℝ :=
  RADIUS_TIP + (x_mm - X_START_MM) / GRIFF_LAENGE_MM * (RADIUS_BUTT - RADIUS_TIP)

/-- Motion directives emitted by `griff_generator.py`: `G0 Z…`, `G0 X…`,
`G0 X… A…`, `G0 A…`, `G1 X… Z… A… F…`, `G1 Z… F…`, `G1 X… F…`, `M2`. -/
inductive GDirective where
  | rapidZ (z : ℝ)
  | rapidX (x : ℝ)
  | rapidXA (x a : ℝ)
  | rapidA (a : ℝ)
  | cutXZA (x z a f : ℝ)
  | cutZ (z f : ℝ)
  | cutX (x f : ℝ)
  | programEnd

/-- Target radius for the roughing passes of `generate_turning`. -/
noncomputable def target_radius : GriffTyp → ℝ
  | GriffTyp.zylindrisch => ZIEL_RADIUS
  | GriffTyp.konisch => min RADIUS_TIP RADIUS_BUTT

/-- The `while r >= target_r + 0.5` roughing-step loop of `generate_turning`
(`some r` = a roughing pass at fixed radius `r`). -/
noncomputable def roughing_loop (target_r : ℝ) (r : ℝ) : List (Option ℝ) :=
  if target_r + 0.5 ≤ r then some r :: roughing_loop target_r (r - 1)
  else []
termination_by Nat.ceil (r - target_r)
decreasing_by
  have hrw : r - 1 - target_r = (r - target_r) - 1 := by ring
  rw [hrw]
  exact ceil_sub_one_lt (by linarith)

/-- Python `roughing_steps`: the roughing passes from one millimeter below the blank
radius, followed by the finishing pass (`none` = follow contour). -/
noncomputable def roughing_steps (target_r : ℝ) : List (Option ℝ) :=
  roughing_loop target_r (ROHLING_RADIUS - 1) ++ [none]

/-- The inner `while True` loop of one turning pass: clamp `x`, choose the
radius (fixed for roughing, contour for finishing), emit
`G1 X… Z… A… F…` with the accumulated rotary coordinate, break at the end
of the grip, else advance by `SCHRITT_MM`.  Returns the emitted moves and
the final accumulated `a_total`. -/
noncomputable def pass_loop (typ : GriffTyp) (fixed_r : Option ℝ) (x a_total : ℝ) :
    List GDirective × ℝ :=
  let r := match fixed_r with
    | some fr => fr
    | none => match typ with
      | GriffTyp.konisch => conical_radius (min x (X_START_MM + GRIFF_LAENGE_MM))
      | GriffTyp.zylindrisch => ZIEL_RADIUS
  let z := z_for_radius r
  let a := a_total + 360 * ROTATIONS_PER_MM * SCHRITT_MM
  if X_START_MM + GRIFF_LAENGE_MM ≤ min x (X_START_MM + GRIFF_LAENGE_MM) then
    ([GDirective.cutXZA (min x (X_START_MM + GRIFF_LAENGE_MM)) z a (FEED_CUT : ℝ)], a)
  else
    let res := pass_loop typ fixed_r (min x (X_START_MM + GRIFF_LAENGE_MM) + SCHRITT_MM) a
    (GDirective.cutXZA (min x (X_START_MM + GRIFF_LAENGE_MM)) z a (FEED_CUT : ℝ) :: res.1,
      res.2)
termination_by Nat.ceil (X_START_MM + GRIFF_LAENGE_MM - x)
decreasing_by
  rename_i hlt
  rw [not_le] at hlt
  have hxlt : x < X_START_MM + GRIFF_LAENGE_MM := by
    by_contra hc
    push_neg at hc
    rw [min_eq_right hc] at hlt
    exact lt_irrefl _ hlt
  rw [min_eq_left hxlt.le] at hlt ⊢
  have hrw : X_START_MM + GRIFF_LAENGE_MM - (x + SCHRITT_MM)
      = (X_START_MM + GRIFF_LAENGE_MM - x) - 1 := by
    norm_num [SCHRITT_MM]
    ring
  rw [hrw]
  exact ceil_sub_one_lt (by linarith)

/-- The `for pass_type, fixed_r in roughing_steps` loop of `generate_turning`,
threading the accumulated rotary coordinate through the passes; each pass is
bracketed by the rapids `G0 Z…`, `G0 X…` of the source. -/
noncomputable def passes_loop (typ : GriffTyp) : List (Option ℝ) → ℝ → List GDirective × ℝ
  | [], a => ([], a)
  | fr :: rest, a =>
      let res := pass_loop typ fr X_START_MM a
      let tail := passes_loop typ rest res.2
      ([GDirective.rapidZ Z_FREIFAHRT, GDirective.rapidX X_START_MM] ++ res.1 ++
        [GDirective.rapidZ Z_FREIFAHRT, GDirective.rapidX X_START_MM] ++ tail.1, tail.2)

/-- Python `generate_turning()`: lathe-style turning for the cylindrical/conical
grips — preamble rapids, all roughing passes plus the finishing pass with the
monotonically accumulated `a_total` starting at `0`, closing rapids, `M2`. -/
noncomputable def generate_turning (typ : GriffTyp) : List GDirective :=
  [GDirective.rapidZ Z_FREIFAHRT, GDirective.rapidXA 0 0] ++
    (passes_loop typ (roughing_steps (target_radius typ)) 0).1 ++
    [GDirective.rapidZ Z_FREIFAHRT, GDirective.rapidX 0, GDirective.programEnd]

/-- Python `generate_polygon()`: polygon milling with an indexed A axis, the face
count passed as the module constant `POLYGON_SEITEN`.  Each face is indexed
to its absolute angle `face * sektor`, approached at the blank surface and
plunged to `z_for_radius(inkreis)` with `inkreis` the polygon inradius. -/
noncomputable def generate_polygon (seiten : ℕ) : List GDirective :=
  let sektor := 360 / (seiten : ℝ)
  let inkreis := POLYGON_UMKREIS * Real.cos (Real.pi / (seiten : ℝ))
  let z_cut := z_for_radius inkreis
  let z_entry := z_for_radius ROHLING_RADIUS
  [GDirective.rapidZ Z_FREIFAHRT, GDirective.rapidXA 0 0] ++
    ((List.range seiten).flatMap (fun face =>
      [GDirective.rapidZ Z_FREIFAHRT,
       GDirective.rapidA ((face : ℝ) * sektor),
       GDirective.rapidX X_START_MM,
       GDirective.cutZ z_entry ((FEED_CUT / 2 : ℕ) : ℝ),
       GDirective.cutZ z_cut ((FEED_CUT / 3 : ℕ) : ℝ),
       GDirective.cutX (X_START_MM + GRIFF_LAENGE_MM) (FEED_CUT : ℝ)])) ++
    [GDirective.rapidZ Z_FREIFAHRT, GDirective.rapidXA 0 0, GDirective.programEnd]

/-- The rotary coordinate of a linear (cutting) move of the turning variant. -/
def turningA : GDirective → Option ℝ
  | GDirective.cutXZA _ _ a _ => some a
  | _ => none

/-- The absolute angle of an A-axis indexing rapid of the polygon variant. -/
def indexA : GDirective → Option ℝ
  | GDirective.rapidA a => some a
  | _ => none

/-! ### Properties of the sine easing -/

theorem sine_transition_zero : sine_transition 0 = 0 := by
  simp [sine_transition]

theorem sine_transition_one : sine_transition 1 = 1 := by
  simp [sine_transition, Real.cos_pi]
  norm_num

theorem sine_transition_half : sine_transition (1/2) = 1/2 := by
  rw [sine_transition, show Real.pi * (1/2) = Real.pi/2 by ring, Real.cos_pi_div_two]
  norm_num

theorem sine_transition_nonneg (t : ℝ) : 0 ≤ sine_transition t := by
  have h := Real.cos_le_one (Real.pi * t)
  rw [sine_transition]
  linarith

theorem sine_transition_le_one (t : ℝ) : sine_transition t ≤ 1 := by
  have h := Real.neg_one_le_cos (Real.pi * t)
  rw [sine_transition]
  linarith

theorem sine_transition_mono {s t : ℝ} (hs : 0 ≤ s) (ht : t ≤ 1) (hst : s ≤ t) :
    sine_transition s ≤ sine_transition t := by
  have hpi := Real.pi_pos
  have h := Real.cos_le_cos_of_nonneg_of_le_pi
    (mul_nonneg hpi.le hs)
    (by nlinarith : Real.pi * t ≤ Real.pi)
    (by nlinarith : Real.pi * s ≤ Real.pi * t)
  rw [sine_transition, sine_transition]
  linarith

theorem sine_transition_continuous : Continuous sine_transition := by
  unfold sine_transition
  exact continuous_const.mul
    (continuous_const.sub (Real.continuous_cos.comp (continuous_const.mul continuous_id)))

/-! ### Branch lemmas for `compute_factor` -/

theorem cf_tip_zero {x xt : ℝ} (stegs : List ℝ) (h : x < TIP_SOLID_MM - UEBERGANG_MM) :
    compute_factor x xt stegs = 0 := by
  have hTU : TIP_SOLID_MM - UEBERGANG_MM < TIP_SOLID_MM := by
    norm_num [TIP_SOLID_MM, UEBERGANG_MM]
  rw [compute_factor, if_pos (h.trans hTU), if_pos h]

theorem cf_tip_ease {x xt : ℝ} (stegs : List ℝ) (h1 : TIP_SOLID_MM - UEBERGANG_MM ≤ x)
    (h2 : x < TIP_SOLID_MM) :
    compute_factor x xt stegs
      = sine_transition ((x - (TIP_SOLID_MM - UEBERGANG_MM)) / UEBERGANG_MM) := by
  rw [compute_factor, if_pos h2, if_neg (not_lt.mpr h1)]

theorem cf_mid {x xt : ℝ} (stegs : List ℝ) (h1 : TIP_SOLID_MM ≤ x)
    (h2 : x ≤ xt - BUTT_SOLID_MM) :
    compute_factor x xt stegs = steg_factor x stegs := by
  rw [compute_factor, if_neg (not_lt.mpr h1), if_neg (not_lt.mpr h2)]

theorem cf_butt_ease {x xt : ℝ} (stegs : List ℝ) (h0 : TIP_SOLID_MM ≤ x)
    (h1 : xt - BUTT_SOLID_MM < x) (h2 : x ≤ xt - BUTT_SOLID_MM + UEBERGANG_MM) :
    compute_factor x xt stegs
      = 1 - sine_transition ((x - (xt - BUTT_SOLID_MM)) / UEBERGANG_MM) := by
  rw [compute_factor, if_neg (not_lt.mpr h0), if_pos h1, if_neg (not_lt.mpr h2)]

theorem cf_butt_zero {x xt : ℝ} (stegs : List ℝ) (h0 : TIP_SOLID_MM ≤ x)
    (h1 : xt - BUTT_SOLID_MM + UEBERGANG_MM < x) :
    compute_factor x xt stegs = 0 := by
  have hU : (0:ℝ) < UEBERGANG_MM := by norm_num [UEBERGANG_MM]
  rw [compute_factor, if_neg (not_lt.mpr h0), if_pos (by linarith), if_pos h1]

/-! ### Branch lemmas for `steg_factor` -/

theorem steg_factor_nil (x : ℝ) : steg_factor x [] = 1 := rfl

theorem steg_factor_cons_in {x c : ℝ} (rest : List ℝ)
    (h1 : c - STEG_BREITE_MM / 2 ≤ x) (h2 : x ≤ c + STEG_BREITE_MM / 2) :
    steg_factor x (c :: rest) = 0 := by
  simp only [steg_factor]
  rw [if_pos ⟨h1, h2⟩]

theorem steg_factor_cons_entry {x c : ℝ} (rest : List ℝ)
    (h1 : c - STEG_BREITE_MM / 2 - UEBERGANG_MM ≤ x) (h2 : x < c - STEG_BREITE_MM / 2) :
    steg_factor x (c :: rest)
      = 1 - sine_transition ((x - (c - STEG_BREITE_MM / 2 - UEBERGANG_MM)) / UEBERGANG_MM) := by
  simp only [steg_factor]
  rw [if_neg (by rintro ⟨hA, -⟩; exact absurd h2 (not_lt.mpr hA)), if_pos ⟨h1, h2⟩]

theorem steg_factor_cons_exit {x c : ℝ} (rest : List ℝ)
    (h1 : c + STEG_BREITE_MM / 2 < x) (h2 : x ≤ c + STEG_BREITE_MM / 2 + UEBERGANG_MM) :
    steg_factor x (c :: rest)
      = sine_transition ((x - (c + STEG_BREITE_MM / 2)) / UEBERGANG_MM) := by
  have hB : (0:ℝ) < STEG_BREITE_MM := by norm_num [STEG_BREITE_MM]
  simp only [steg_factor]
  rw [if_neg (by rintro ⟨-, hA⟩; exact absurd h1 (not_lt.mpr hA)),
    if_neg (by rintro ⟨-, hA⟩; linarith), if_pos ⟨h1, h2⟩]

theorem steg_factor_cons_out {x c : ℝ} (rest : List ℝ)
    (h : x < c - STEG_BREITE_MM / 2 - UEBERGANG_MM ∨ c + STEG_BREITE_MM / 2 + UEBERGANG_MM < x) :
    steg_factor x (c :: rest) = steg_factor x rest := by
  have hB : (0:ℝ) < STEG_BREITE_MM := by norm_num [STEG_BREITE_MM]
  have hU : (0:ℝ) < UEBERGANG_MM := by norm_num [UEBERGANG_MM]
  simp only [steg_factor]
  rcases h with h | h
  · rw [if_neg (by rintro ⟨hA, -⟩; linarith), if_neg (by rintro ⟨hA, -⟩; linarith),
      if_neg (by rintro ⟨hA, -⟩; linarith)]
  · rw [if_neg (by rintro ⟨-, hA⟩; linarith), if_neg (by rintro ⟨-, hA⟩; linarith),
      if_neg (by rintro ⟨-, hA⟩; linarith)]

/-! ### Claim C1 -/

/-- C1 counterexample: the claim asserts that the mask of the terminal
(tip) zone `[0, 80]` with transition width `8` and no interior zones is `0`
at every position inside the interval, and in particular `mask(80) = 0`;
the code instead returns `1` at position `80`. -/
theorem claim_C1_counterexample :
    compute_factor 80 1524 [] = 1 ∧ compute_factor 80 1524 [] ≠ 0 := by
  have h : compute_factor 80 1524 [] = 1 := by
    rw [cf_mid [] (by norm_num [TIP_SOLID_MM]) (by norm_num [BUTT_SOLID_MM]),
      steg_factor_nil]
  exact ⟨h, by rw [h]; norm_num⟩

/-- C1 (amended): glue-land zones `[c − w/2·…]` behave as the claim states
(mask `0` inside `[start, end]`, sine easing `1→0` over `[start−w, start]`
and `0→1` over `[end, end+w]`, `1` elsewhere in the hollow region), but the
terminal zones place their sine transition inside the solid interval: the
tip mask is `0` on `[0, L−w]`, eases `0→1` over `[L−w, L]`, and is `1` from
`L` on; the butt mask eases `1→0` over `[bs, bs+w]` and is `0` beyond.  In
the scenario (terminal zone length 80, transition width 8, no interior
zones): `mask(76) = 1/2` is strictly between 0 and 1, `mask(80) = 1` (not
0), `mask(88) = 1`, and the mask is monotonically non-decreasing both on
`[72, 80]` (the actual easing interval) and on `[80, 88]` (identically 1). -/
theorem claim_C1 (xt c : ℝ) (hxt : 148 ≤ xt)
    (hc1 : TIP_SOLID_MM + STEG_BREITE_MM / 2 + UEBERGANG_MM ≤ c)
    (hc2 : c + STEG_BREITE_MM / 2 + UEBERGANG_MM ≤ xt - BUTT_SOLID_MM) :
    (∀ x : ℝ, x ≤ TIP_SOLID_MM - UEBERGANG_MM → compute_factor x xt [] = 0) ∧
    (∀ x : ℝ, TIP_SOLID_MM - UEBERGANG_MM ≤ x → x ≤ TIP_SOLID_MM →
      compute_factor x xt []
        = sine_transition ((x - (TIP_SOLID_MM - UEBERGANG_MM)) / UEBERGANG_MM)) ∧
    MonotoneOn (fun x => compute_factor x xt [])
      (Set.Icc (TIP_SOLID_MM - UEBERGANG_MM) TIP_SOLID_MM) ∧
    (compute_factor 76 xt [] = 1/2 ∧ 0 < compute_factor 76 xt [] ∧
      compute_factor 76 xt [] < 1) ∧
    compute_factor 80 xt [] = 1 ∧
    compute_factor 88 xt [] = 1 ∧
    (∀ x : ℝ, TIP_SOLID_MM ≤ x → x ≤ 88 → compute_factor x xt [] = 1) ∧
    MonotoneOn (fun x => compute_factor x xt []) (Set.Icc TIP_SOLID_MM 88) ∧
    (∀ x : ℝ, xt - BUTT_SOLID_MM ≤ x → x ≤ xt - BUTT_SOLID_MM + UEBERGANG_MM →
      compute_factor x xt []
        = 1 - sine_transition ((x - (xt - BUTT_SOLID_MM)) / UEBERGANG_MM)) ∧
    (∀ x : ℝ, xt - BUTT_SOLID_MM + UEBERGANG_MM < x → compute_factor x xt [] = 0) ∧
    (∀ x : ℝ, c - STEG_BREITE_MM / 2 ≤ x → x ≤ c + STEG_BREITE_MM / 2 →
      compute_factor x xt [c] = 0) ∧
    (∀ x : ℝ, c - STEG_BREITE_MM / 2 - UEBERGANG_MM ≤ x → x ≤ c - STEG_BREITE_MM / 2 →
      compute_factor x xt [c]
        = 1 - sine_transition ((x - (c - STEG_BREITE_MM / 2 - UEBERGANG_MM)) / UEBERGANG_MM)) ∧
    (∀ x : ℝ, c + STEG_BREITE_MM / 2 ≤ x → x ≤ c + STEG_BREITE_MM / 2 + UEBERGANG_MM →
      compute_factor x xt [c]
        = sine_transition ((x - (c + STEG_BREITE_MM / 2)) / UEBERGANG_MM)) ∧
    (∀ x : ℝ, TIP_SOLID_MM ≤ x → x ≤ xt - BUTT_SOLID_MM →
      (x < c - STEG_BREITE_MM / 2 - UEBERGANG_MM ∨ c + STEG_BREITE_MM / 2 + UEBERGANG_MM < x) →
      compute_factor x xt [c] = 1) := by
  have hT : TIP_SOLID_MM = 80 := rfl
  have hU : UEBERGANG_MM = 8 := rfl
  have hB : STEG_BREITE_MM = 12 := rfl
  have hBu : BUTT_SOLID_MM = 60 := rfl
  have key1 : ∀ x : ℝ, x ≤ TIP_SOLID_MM - UEBERGANG_MM → compute_factor x xt [] = 0 := by
    intro x hx
    rcases eq_or_lt_of_le hx with heq | hlt
    · rw [heq, cf_tip_ease [] (le_refl _) (by rw [hT, hU]; norm_num), sub_self, zero_div,
        sine_transition_zero]
    · exact cf_tip_zero [] hlt
  have key2 : ∀ x : ℝ, TIP_SOLID_MM - UEBERGANG_MM ≤ x → x ≤ TIP_SOLID_MM →
      compute_factor x xt []
        = sine_transition ((x - (TIP_SOLID_MM - UEBERGANG_MM)) / UEBERGANG_MM) := by
    intro x h1 h2
    rcases eq_or_lt_of_le h2 with heq | hlt
    · rw [heq, cf_mid [] (le_refl _) (by rw [hT, hBu]; linarith), steg_factor_nil,
        show (TIP_SOLID_MM - (TIP_SOLID_MM - UEBERGANG_MM)) / UEBERGANG_MM = 1 by
          rw [hT, hU]; norm_num,
        sine_transition_one]
    · exact cf_tip_ease [] h1 hlt
  have key7 : ∀ x : ℝ, TIP_SOLID_MM ≤ x → x ≤ 88 → compute_factor x xt [] = 1 := by
    intro x h1 h2
    rw [cf_mid [] h1 (by rw [hBu]; linarith), steg_factor_nil]
  refine ⟨key1, key2, ?_, ?_, ?_, ?_, key7, ?_, ?_, ?_, ?_, ?_, ?_, ?_⟩
  · intro a ha b hb hab
    simp only []
    rw [key2 a ha.1 ha.2, key2 b hb.1 hb.2]
    have ha1 := ha.1
    have hb2 := hb.2
    rw [hT, hU] at ha1
    rw [hT] at hb2
    rw [hT, hU]
    have h8 : (0:ℝ) < 8 := by norm_num
    apply sine_transition_mono
    · exact div_nonneg (by linarith) h8.le
    · rw [div_le_one h8]
      linarith
    · exact (div_le_div_right h8).mpr (by linarith)
  · have hv : compute_factor 76 xt [] = 1/2 := by
      rw [key2 76 (by rw [hT, hU]; norm_num) (by rw [hT]; norm_num),
        show ((76:ℝ) - (TIP_SOLID_MM - UEBERGANG_MM)) / UEBERGANG_MM = 1/2 by
          rw [hT, hU]; norm_num,
        sine_transition_half]
    exact ⟨hv, by rw [hv]; norm_num, by rw [hv]; norm_num⟩
  · exact key7 80 (by rw [hT]) (by norm_num)
  · exact key7 88 (by rw [hT]; norm_num) (le_refl _)
  · intro a ha b hb hab
    simp only []
    rw [key7 a ha.1 ha.2, key7 b hb.1 hb.2]
  · intro x h1 h2
    rcases eq_or_lt_of_le h1 with heq | hlt
    · rw [← heq, cf_mid [] (by rw [hT]; linarith) (le_refl _), steg_factor_nil, sub_self,
        zero_div, sine_transition_zero]
      norm_num
    · exact cf_butt_ease [] (by rw [hT]; linarith) hlt h2
  · intro x h1
    exact cf_butt_zero [] (by rw [hT]; rw [hU] at h1; linarith) h1
  · intro x h1 h2
    rw [cf_mid [c] (by linarith) (by linarith), steg_factor_cons_in [] h1 h2]
  · intro x h1 h2
    have hmid : compute_factor x xt [c] = steg_factor x [c] :=
      cf_mid [c] (by linarith) (by linarith)
    rcases eq_or_lt_of_le h2 with heq | hlt
    · rw [hmid, heq, steg_factor_cons_in [] (le_refl _) (by rw [hB]; linarith),
        show (c - STEG_BREITE_MM / 2 - (c - STEG_BREITE_MM / 2 - UEBERGANG_MM)) / UEBERGANG_MM
            = 1 by rw [hU]; norm_num,
        sine_transition_one]
      norm_num
    · rw [hmid, steg_factor_cons_entry [] h1 hlt]
  · intro x h1 h2
    have hmid : compute_factor x xt [c] = steg_factor x [c] :=
      cf_mid [c] (by linarith) (by linarith)
    rcases eq_or_lt_of_le h1 with heq | hlt
    · rw [hmid, ← heq, steg_factor_cons_in [] (by rw [hB]; linarith) (le_refl _), sub_self,
        zero_div, sine_transition_zero]
    · rw [hmid, steg_factor_cons_exit [] hlt h2]
  · intro x h1 h2 hor
    rw [cf_mid [c] h1 h2, steg_factor_cons_out [] hor, steg_factor_nil]

/-- C1 witness: the amended theorem applied at the reference geometry
(`xt = 1524`, glue land at `c = 230`) and position `60` deep in the tip
solid section. -/
theorem claim_C1_witness : compute_factor 60 1524 [] = 0 :=
  (claim_C1 1524 230 (by norm_num)
    (by norm_num [TIP_SOLID_MM, STEG_BREITE_MM, UEBERGANG_MM])
    (by norm_num [STEG_BREITE_MM, UEBERGANG_MM, BUTT_SOLID_MM])).1 60
    (by norm_num [TIP_SOLID_MM, UEBERGANG_MM])

/-! ### Range of the mask -/

theorem steg_factor_mem (x : ℝ) : ∀ stegs : List ℝ, steg_factor x stegs ∈ Set.Icc (0:ℝ) 1
  | [] => by rw [steg_factor_nil]; exact ⟨zero_le_one, le_refl 1⟩
  | c :: rest => by
      simp only [steg_factor]
      split_ifs
      · exact ⟨le_refl 0, zero_le_one⟩
      · exact ⟨by linarith [sine_transition_le_one ((x - (c - STEG_BREITE_MM / 2 -
            UEBERGANG_MM)) / UEBERGANG_MM)],
          by linarith [sine_transition_nonneg ((x - (c - STEG_BREITE_MM / 2 -
            UEBERGANG_MM)) / UEBERGANG_MM)]⟩
      · exact ⟨sine_transition_nonneg _, sine_transition_le_one _⟩
      · exact steg_factor_mem x rest

theorem compute_factor_mem (x xt : ℝ) (stegs : List ℝ) :
    compute_factor x xt stegs ∈ Set.Icc (0:ℝ) 1 := by
  rw [compute_factor]
  split_ifs
  · exact ⟨le_refl 0, zero_le_one⟩
  · exact ⟨sine_transition_nonneg _, sine_transition_le_one _⟩
  · exact ⟨le_refl 0, zero_le_one⟩
  · exact ⟨by linarith [sine_transition_le_one ((x - (xt - BUTT_SOLID_MM)) / UEBERGANG_MM)],
      by linarith [sine_transition_nonneg ((x - (xt - BUTT_SOLID_MM)) / UEBERGANG_MM)]⟩
  · exact steg_factor_mem x stegs

/-! ### Continuity helpers -/

theorem continuous_if_lt {f g : ℝ → ℝ} {c : ℝ} (hf : Continuous f) (hg : Continuous g)
    (hfg : f c = g c) : Continuous fun x => if x < c then f x else g x := by
  have heq : (fun x => if x < c then f x else g x) = fun x => if c ≤ x then g x else f x := by
    funext x
    rcases lt_or_le x c with h | h
    · rw [if_pos h, if_neg (not_le.mpr h)]
    · rw [if_neg (not_lt.mpr h), if_pos h]
  rw [heq]
  exact Continuous.if_le hg hf continuous_const continuous_id fun x hx => by
    rw [← hx]; exact hfg.symm

theorem continuous_if_const_lt {f g : ℝ → ℝ} {c : ℝ} (hf : Continuous f) (hg : Continuous g)
    (hfg : f c = g c) : Continuous fun x => if c < x then f x else g x := by
  have heq : (fun x => if c < x then f x else g x) = fun x => if x ≤ c then g x else f x := by
    funext x
    rcases le_or_lt x c with h | h
    · rw [if_neg (not_lt.mpr h), if_pos h]
    · rw [if_pos h, if_neg (not_le.mpr h)]
  rw [heq]
  exact Continuous.if_le hg hf continuous_id continuous_const fun x hx => by
    rw [hx]; exact hfg.symm

theorem continuous_sine_arg (a u : ℝ) :
    Continuous fun x => sine_transition ((x - a) / u) :=
  sine_transition_continuous.comp ((continuous_id.sub continuous_const).div_const u)

/-- Mask of a single glue land, equal to the factor `compute_factor` assigns
when this land is the (unique) one whose influence region contains `x`, and
`1` outside the influence region; used to rewrite the first-match loop of
`steg_factor` as a product when the lands are separated. -/
noncomputable def steg_mask_one (c x : ℝ) : ℝ :=
  if x < c - STEG_BREITE_MM / 2 - UEBERGANG_MM then 1
  else if x < c - STEG_BREITE_MM / 2 then
    1 - sine_transition ((x - (c - STEG_BREITE_MM / 2 - UEBERGANG_MM)) / UEBERGANG_MM)
  else if x ≤ c + STEG_BREITE_MM / 2 then 0
  else if x ≤ c + STEG_BREITE_MM / 2 + UEBERGANG_MM then
    sine_transition ((x - (c + STEG_BREITE_MM / 2)) / UEBERGANG_MM)
  else 1

theorem smo_in {c x : ℝ} (h1 : c - STEG_BREITE_MM / 2 ≤ x) (h2 : x ≤ c + STEG_BREITE_MM / 2) :
    steg_mask_one c x = 0 := by
  have hU : (0:ℝ) < UEBERGANG_MM := by norm_num [UEBERGANG_MM]
  rw [steg_mask_one, if_neg (by push_neg; linarith), if_neg (by push_neg; linarith), if_pos h2]

theorem smo_entry {c x : ℝ} (h1 : c - STEG_BREITE_MM / 2 - UEBERGANG_MM ≤ x)
    (h2 : x < c - STEG_BREITE_MM / 2) :
    steg_mask_one c x
      = 1 - sine_transition ((x - (c - STEG_BREITE_MM / 2 - UEBERGANG_MM)) / UEBERGANG_MM) := by
  rw [steg_mask_one, if_neg (not_lt.mpr h1), if_pos h2]

theorem smo_exit {c x : ℝ} (h1 : c + STEG_BREITE_MM / 2 < x)
    (h2 : x ≤ c + STEG_BREITE_MM / 2 + UEBERGANG_MM) :
    steg_mask_one c x = sine_transition ((x - (c + STEG_BREITE_MM / 2)) / UEBERGANG_MM) := by
  have hB : (0:ℝ) < STEG_BREITE_MM := by norm_num [STEG_BREITE_MM]
  have hU : (0:ℝ) < UEBERGANG_MM := by norm_num [UEBERGANG_MM]
  rw [steg_mask_one, if_neg (by push_neg; linarith), if_neg (by push_neg; linarith),
    if_neg (not_le.mpr h1), if_pos h2]

theorem smo_left_out {c x : ℝ} (h : x ≤ c - STEG_BREITE_MM / 2 - UEBERGANG_MM) :
    steg_mask_one c x = 1 := by
  rcases lt_or_eq_of_le h with hlt | heq
  · rw [steg_mask_one, if_pos hlt]
  · have hU : (0:ℝ) < UEBERGANG_MM := by norm_num [UEBERGANG_MM]
    rw [steg_mask_one, if_neg (not_lt.mpr (le_of_eq heq.symm)), if_pos (by linarith), heq,
      sub_self, zero_div, sine_transition_zero]
    norm_num

theorem smo_right_out {c x : ℝ} (h : c + STEG_BREITE_MM / 2 + UEBERGANG_MM < x) :
    steg_mask_one c x = 1 := by
  have hB : (0:ℝ) < STEG_BREITE_MM := by norm_num [STEG_BREITE_MM]
  have hU : (0:ℝ) < UEBERGANG_MM := by norm_num [UEBERGANG_MM]
  rw [steg_mask_one, if_neg (by push_neg; linarith), if_neg (by push_neg; linarith),
    if_neg (by push_neg; linarith), if_neg (not_le.mpr h)]

theorem steg_mask_one_continuous (c : ℝ) : Continuous (steg_mask_one c) := by
  have hU : (0:ℝ) < UEBERGANG_MM := by norm_num [UEBERGANG_MM]
  have hB : (0:ℝ) < STEG_BREITE_MM := by norm_num [STEG_BREITE_MM]
  unfold steg_mask_one
  apply continuous_if_lt continuous_const
  · apply continuous_if_lt
      (continuous_const.sub (continuous_sine_arg (c - STEG_BREITE_MM / 2 - UEBERGANG_MM)
        UEBERGANG_MM))
    · apply Continuous.if_le
        continuous_const
        (Continuous.if_le (continuous_sine_arg (c + STEG_BREITE_MM / 2) UEBERGANG_MM)
          continuous_const continuous_id continuous_const
          (fun x hx => by
            simp only [id_eq] at hx
            rw [hx, show (c + STEG_BREITE_MM / 2 + UEBERGANG_MM - (c + STEG_BREITE_MM / 2))
                / UEBERGANG_MM = 1 by field_simp, sine_transition_one]))
        continuous_id continuous_const
        (fun x hx => by
          simp only [id_eq] at hx
          rw [hx, if_pos (by simp only [id_eq]; linarith),
            show (c + STEG_BREITE_MM / 2 - (c + STEG_BREITE_MM / 2))
              / UEBERGANG_MM = 0 by rw [sub_self, zero_div], sine_transition_zero])
    · rw [show (c - STEG_BREITE_MM / 2 - (c - STEG_BREITE_MM / 2 - UEBERGANG_MM))
          / UEBERGANG_MM = 1 by field_simp, sine_transition_one, if_pos (by linarith)]
      norm_num
  · rw [show (c - STEG_BREITE_MM / 2 - UEBERGANG_MM - (c - STEG_BREITE_MM / 2 - UEBERGANG_MM))
        / UEBERGANG_MM = 0 by rw [sub_self, zero_div], sine_transition_zero,
      if_pos (by linarith)]
    norm_num

/-- Product of the one-land masks over a list of centers. -/
noncomputable def steg_mask_prod (stegs : List ℝ) (x : ℝ) : ℝ :=
  (stegs.map (fun c => steg_mask_one c x)).prod

theorem steg_mask_prod_continuous (stegs : List ℝ) :
    Continuous (steg_mask_prod stegs) := by
  induction stegs with
  | nil => simpa [steg_mask_prod] using continuous_const
  | cons c rest ih =>
      have : steg_mask_prod (c :: rest) = fun x => steg_mask_one c x * steg_mask_prod rest x := by
        funext x
        simp [steg_mask_prod]
      rw [this]
      exact (steg_mask_one_continuous c).mul ih

theorem steg_mask_prod_one_left {x : ℝ} : ∀ {stegs : List ℝ},
    (∀ c ∈ stegs, x ≤ c - STEG_BREITE_MM / 2 - UEBERGANG_MM) → steg_mask_prod stegs x = 1 := by
  intro stegs
  induction stegs with
  | nil => intro _; simp [steg_mask_prod]
  | cons c rest ih =>
      intro h
      have hc : steg_mask_one c x = 1 := smo_left_out (h c (List.mem_cons_self c rest))
      have hr := ih fun c' hc' => h c' (List.mem_cons_of_mem c hc')
      simp only [steg_mask_prod, List.map_cons, List.prod_cons] at *
      rw [hc, hr, one_mul]

theorem steg_mask_prod_one_right {x : ℝ} : ∀ {stegs : List ℝ},
    (∀ c ∈ stegs, c + STEG_BREITE_MM / 2 + UEBERGANG_MM < x) → steg_mask_prod stegs x = 1 := by
  intro stegs
  induction stegs with
  | nil => intro _; simp [steg_mask_prod]
  | cons c rest ih =>
      intro h
      have hc : steg_mask_one c x = 1 := smo_right_out (h c (List.mem_cons_self c rest))
      have hr := ih fun c' hc' => h c' (List.mem_cons_of_mem c hc')
      simp only [steg_mask_prod, List.map_cons, List.prod_cons] at *
      rw [hc, hr, one_mul]

/-- When the glue lands are separated by at least the land width plus two
transition widths, the first-match loop of `steg_factor` agrees with the
product of the one-land masks. -/
theorem steg_factor_eq_prod (x : ℝ) : ∀ (stegs : List ℝ),
    List.Pairwise (fun a b => a + (STEG_BREITE_MM + 2 * UEBERGANG_MM) ≤ b) stegs →
    steg_factor x stegs = steg_mask_prod stegs x := by
  intro stegs
  induction stegs with
  | nil => intro _; rw [steg_factor_nil]; simp [steg_mask_prod]
  | cons c rest ih =>
      intro hp
      rw [List.pairwise_cons] at hp
      obtain ⟨hsep, hps⟩ := hp
      have hB : (0:ℝ) < STEG_BREITE_MM := by norm_num [STEG_BREITE_MM]
      have hU : (0:ℝ) < UEBERGANG_MM := by norm_num [UEBERGANG_MM]
      have hprodcons : steg_mask_prod (c :: rest) x
          = steg_mask_one c x * steg_mask_prod rest x := by
        simp [steg_mask_prod]
      by_cases h1 : c - STEG_BREITE_MM / 2 ≤ x ∧ x ≤ c + STEG_BREITE_MM / 2
      · rw [steg_factor_cons_in rest h1.1 h1.2, hprodcons, smo_in h1.1 h1.2, zero_mul]
      · by_cases h2 : c - STEG_BREITE_MM / 2 - UEBERGANG_MM ≤ x ∧ x < c - STEG_BREITE_MM / 2
        · have hrest : steg_mask_prod rest x = 1 :=
            steg_mask_prod_one_left fun c' hc' => by
              have := hsep c' hc'
              linarith [h2.2]
          rw [steg_factor_cons_entry rest h2.1 h2.2, hprodcons, smo_entry h2.1 h2.2, hrest,
            mul_one]
        · by_cases h3 : c + STEG_BREITE_MM / 2 < x ∧ x ≤ c + STEG_BREITE_MM / 2 + UEBERGANG_MM
          · have hrest : steg_mask_prod rest x = 1 :=
              steg_mask_prod_one_left fun c' hc' => by
                have := hsep c' hc'
                linarith [h3.2]
            rw [steg_factor_cons_exit rest h3.1 h3.2, hprodcons, smo_exit h3.1 h3.2, hrest,
              mul_one]
          · have hor : x < c - STEG_BREITE_MM / 2 - UEBERGANG_MM
                ∨ c + STEG_BREITE_MM / 2 + UEBERGANG_MM < x := by
              push_neg at h1 h2 h3
              by_contra hcon
              push_neg at hcon
              have ha := h2 hcon.1
              have hb := h1 ha
              have hc := h3 hb
              linarith [hcon.2]
            have hone : steg_mask_one c x = 1 := by
              rcases hor with h | h
              · exact smo_left_out h.le
              · exact smo_right_out h
            rw [steg_factor_cons_out rest hor, hprodcons, hone, one_mul]
            exact ih hps

/-- Continuity of the mask: with the glue lands separated and strictly
inside the hollow region, `compute_factor` is a continuous function of
position — no jump discontinuities, including at every zone boundary. -/
theorem compute_factor_continuous (xt : ℝ) (stegs : List ℝ)
    (hp : List.Pairwise (fun a b => a + (STEG_BREITE_MM + 2 * UEBERGANG_MM) ≤ b) stegs)
    (hlo : ∀ c ∈ stegs, TIP_SOLID_MM ≤ c - STEG_BREITE_MM / 2 - UEBERGANG_MM)
    (hhi : ∀ c ∈ stegs, c + STEG_BREITE_MM / 2 + UEBERGANG_MM < xt - BUTT_SOLID_MM)
    (hTB : TIP_SOLID_MM ≤ xt - BUTT_SOLID_MM) :
    Continuous (fun x => compute_factor x xt stegs) := by
  have hU : (0:ℝ) < UEBERGANG_MM := by norm_num [UEBERGANG_MM]
  have heq : (fun x => compute_factor x xt stegs) = fun x =>
      if x < TIP_SOLID_MM then
        (if x < TIP_SOLID_MM - UEBERGANG_MM then (0:ℝ)
          else sine_transition ((x - (TIP_SOLID_MM - UEBERGANG_MM)) / UEBERGANG_MM))
      else
        (if xt - BUTT_SOLID_MM < x then
          (if xt - BUTT_SOLID_MM + UEBERGANG_MM < x then (0:ℝ)
            else 1 - sine_transition ((x - (xt - BUTT_SOLID_MM)) / UEBERGANG_MM))
        else steg_mask_prod stegs x) := by
    funext x
    rw [compute_factor]
    by_cases hA : x < TIP_SOLID_MM
    · rw [if_pos hA, if_pos hA]
    · rw [if_neg hA, if_neg hA]
      by_cases hBc : xt - BUTT_SOLID_MM < x
      · rw [if_pos hBc, if_pos hBc]
      · rw [if_neg hBc, if_neg hBc]
        exact steg_factor_eq_prod x stegs hp
  rw [heq]
  have htip : Continuous fun x =>
      if x < TIP_SOLID_MM - UEBERGANG_MM then (0:ℝ)
      else sine_transition ((x - (TIP_SOLID_MM - UEBERGANG_MM)) / UEBERGANG_MM) := by
    apply continuous_if_lt continuous_const
      (continuous_sine_arg (TIP_SOLID_MM - UEBERGANG_MM) UEBERGANG_MM)
    rw [sub_self, zero_div, sine_transition_zero]
  have hbutt : Continuous fun x =>
      if xt - BUTT_SOLID_MM + UEBERGANG_MM < x then (0:ℝ)
      else 1 - sine_transition ((x - (xt - BUTT_SOLID_MM)) / UEBERGANG_MM) := by
    apply continuous_if_const_lt continuous_const
      (continuous_const.sub (continuous_sine_arg (xt - BUTT_SOLID_MM) UEBERGANG_MM))
    rw [show (xt - BUTT_SOLID_MM + UEBERGANG_MM - (xt - BUTT_SOLID_MM)) / UEBERGANG_MM = 1 by
      field_simp, sine_transition_one]
    norm_num
  have hrest : Continuous fun x =>
      if xt - BUTT_SOLID_MM < x then
        (if xt - BUTT_SOLID_MM + UEBERGANG_MM < x then (0:ℝ)
          else 1 - sine_transition ((x - (xt - BUTT_SOLID_MM)) / UEBERGANG_MM))
      else steg_mask_prod stegs x := by
    apply continuous_if_const_lt hbutt (steg_mask_prod_continuous stegs)
    rw [if_neg (by push_neg; linarith), sub_self, zero_div, sine_transition_zero,
      steg_mask_prod_one_right fun c hc => hhi c hc]
    norm_num
  apply continuous_if_lt htip hrest
  rw [if_neg (by push_neg; linarith),
    show (TIP_SOLID_MM - (TIP_SOLID_MM - UEBERGANG_MM)) / UEBERGANG_MM = 1 by field_simp,
    sine_transition_one, if_neg (by push_neg; linarith),
    steg_mask_prod_one_left fun c hc => hlo c hc]

/-! ### The reference configuration -/

theorem x_total_eq : x_total = 1524 := by
  norm_num [x_total, stations_mm, taper_data, ZOLL_ZU_MM]

theorem steg_loop_pos {e x : ℝ} (h : x < e) :
    steg_loop e x = x :: steg_loop e (x + STEG_ABSTAND_MM) := by
  rw [steg_loop]
  exact if_pos h

theorem steg_loop_neg {e x : ℝ} (h : ¬ x < e) : steg_loop e x = [] := by
  rw [steg_loop]
  exact if_neg h

theorem steg_positions_eq :
    steg_positions = [230, 380, 530, 680, 830, 980, 1130, 1280, 1430] := by
  have hS : STEG_ABSTAND_MM = 150 := rfl
  rw [steg_positions, x_total_eq, compute_steg_positions]
  norm_num [TIP_SOLID_MM, BUTT_SOLID_MM, hS]
  rw [steg_loop_pos (by norm_num), hS]
  norm_num
  rw [steg_loop_pos (by norm_num), hS]
  norm_num
  rw [steg_loop_pos (by norm_num), hS]
  norm_num
  rw [steg_loop_pos (by norm_num), hS]
  norm_num
  rw [steg_loop_pos (by norm_num), hS]
  norm_num
  rw [steg_loop_pos (by norm_num), hS]
  norm_num
  rw [steg_loop_pos (by norm_num), hS]
  norm_num
  rw [steg_loop_pos (by norm_num), hS]
  norm_num
  rw [steg_loop_pos (by norm_num), hS]
  norm_num
  rw [steg_loop_neg (by norm_num)]

/-! ### Claim C2 -/

/-- C2: for every position `x` the mask `compute_factor x xt stegs` lies in
the closed interval `[0, 1]` (for any total length and glue-land list), and
for the reference configuration — whose zones are geometrically disjoint as
constructed — the mask is a continuous function of position everywhere,
including at every zone boundary. -/
theorem claim_C2 :
    (∀ (x xt : ℝ) (stegs : List ℝ), compute_factor x xt stegs ∈ Set.Icc (0:ℝ) 1) ∧
    Continuous (fun x => compute_factor x x_total steg_positions) := by
  constructor
  · exact fun x xt stegs => compute_factor_mem x xt stegs
  · apply compute_factor_continuous
    · rw [steg_positions_eq]
      norm_num [List.pairwise_cons, STEG_BREITE_MM, UEBERGANG_MM]
    · rw [steg_positions_eq]
      intro c hc
      fin_cases hc <;> norm_num [TIP_SOLID_MM, STEG_BREITE_MM, UEBERGANG_MM]
    · rw [steg_positions_eq, x_total_eq]
      intro c hc
      fin_cases hc <;> norm_num [BUTT_SOLID_MM, STEG_BREITE_MM, UEBERGANG_MM]
    · rw [x_total_eq]
      norm_num [TIP_SOLID_MM, BUTT_SOLID_MM]

/-! ### Interpolation: exactness and range -/

theorem interpolate_exact : ∀ (stations : List (ℝ × ℝ)),
    stations.Pairwise (fun p q => p.1 < q.1) → 2 ≤ stations.length →
    ∀ p ∈ stations, interpolate_dimension p.1 stations = some p.2
  | [] => by intro _ h2; simp at h2
  | [a] => by intro _ h2; simp at h2
  | ⟨x0, d0⟩ :: ⟨x1, d1⟩ :: rest => by
      intro hp _ p hmem
      rw [List.pairwise_cons] at hp
      obtain ⟨hab, hp1⟩ := hp
      have hx01 : x0 < x1 := hab (x1, d1) (List.mem_cons_self _ _)
      rcases List.mem_cons.mp hmem with rfl | hmem'
      · simp only [interpolate_dimension]
        rw [if_pos ⟨le_refl _, hx01.le⟩, sub_self, zero_div, zero_mul, add_zero]
      · rcases List.mem_cons.mp hmem' with rfl | hmem''
        · simp only [interpolate_dimension]
          rw [if_pos ⟨hx01.le, le_refl _⟩, div_self (ne_of_gt (sub_pos.mpr hx01))]
          norm_num
        · have hp1' := hp1
          rw [List.pairwise_cons] at hp1'
          obtain ⟨hbr, hp2⟩ := hp1'
          have hb_lt : x1 < p.1 := hbr p hmem''
          simp only [interpolate_dimension]
          rw [if_neg (by rintro ⟨-, hle⟩; exact absurd hb_lt (not_lt.mpr hle))]
          have hlen : 2 ≤ ((x1, d1) :: rest).length := by
            cases rest with
            | nil => exact absurd hmem'' (List.not_mem_nil p)
            | cons c cs => simp
          exact interpolate_exact ((x1, d1) :: rest) hp1 hlen p (List.mem_cons_of_mem _ hmem'')

theorem head_fst_le_getLast_fst : ∀ (l : List (ℝ × ℝ)),
    l.Pairwise (fun p q => p.1 < q.1) → l ≠ [] →
    (l.head?.getD (0, 0)).1 ≤ ((l.getLast?).getD (0, 0)).1
  | [] => by intro _ h; exact absurd rfl h
  | [a] => by intro _ _; simp
  | a :: b :: rest => by
      intro hp _
      rw [List.pairwise_cons] at hp
      obtain ⟨hab, hp1⟩ := hp
      have h1 : a.1 < b.1 := hab b (List.mem_cons_self _ _)
      have h2 := head_fst_le_getLast_fst (b :: rest) hp1 (by simp)
      simp only [List.head?_cons, Option.getD_some, List.getLast?_cons_cons] at h2 ⊢
      linarith

theorem interpolate_ne_none_iff : ∀ (stations : List (ℝ × ℝ)),
    stations.Pairwise (fun p q => p.1 < q.1) → 2 ≤ stations.length → ∀ x : ℝ,
    (interpolate_dimension x stations ≠ none ↔
      (stations.head?.getD (0, 0)).1 ≤ x ∧ x ≤ ((stations.getLast?).getD (0, 0)).1)
  | [] => by intro _ h2; simp at h2
  | [a] => by intro _ h2; simp at h2
  | ⟨x0, d0⟩ :: ⟨x1, d1⟩ :: rest => by
      intro hp _ x
      have hp' := hp
      rw [List.pairwise_cons] at hp'
      obtain ⟨hab, hp1⟩ := hp'
      have hx01 : x0 < x1 := hab (x1, d1) (List.mem_cons_self _ _)
      simp only [List.head?_cons, Option.getD_some, List.getLast?_cons_cons]
      by_cases hcond : x0 ≤ x ∧ x ≤ x1
      · have hsome : interpolate_dimension x ((x0, d0) :: (x1, d1) :: rest)
            = some (d0 + (x - x0) / (x1 - x0) * (d1 - d0)) := by
          simp only [interpolate_dimension]
          rw [if_pos hcond]
        rw [hsome]
        have hlast : x1 ≤ (((x1, d1) :: rest).getLast?.getD (0, 0)).1 := by
          have := head_fst_le_getLast_fst ((x1, d1) :: rest) hp1 (by simp)
          simpa using this
        simp only [ne_eq, Option.some_ne_none, not_false_iff, true_iff]
        exact ⟨hcond.1, le_trans hcond.2 hlast⟩
      · have hrec : interpolate_dimension x ((x0, d0) :: (x1, d1) :: rest)
            = interpolate_dimension x ((x1, d1) :: rest) := by
          simp only [interpolate_dimension]
          rw [if_neg hcond]
        rw [hrec]
        cases rest with
        | nil =>
            have hnone : interpolate_dimension x [(x1, d1)] = none := by
              simp only [interpolate_dimension]
            rw [hnone]
            simp only [List.getLast?_singleton, Option.getD_some]
            constructor
            · intro h
              exact absurd rfl h
            · intro hand
              exact absurd hand hcond
        | cons c cs =>
            rw [interpolate_ne_none_iff ((x1, d1) :: c :: cs) hp1 (by simp) x]
            simp only [List.head?_cons, Option.getD_some]
            push_neg at hcond
            constructor
            · rintro ⟨h1, h2⟩
              exact ⟨le_trans hx01.le h1, h2⟩
            · rintro ⟨h1, h2⟩
              exact ⟨le_of_lt (hcond h1), h2⟩

/-! ### Claim C3 -/

/-- C3: for every table with at least 2 measurements and strictly increasing
positions, interpolation at a measurement's position returns that
measurement's dimension exactly — including at the last station, where
`d0 + t×(d1−d0)` with `t = 1` yields `d1` exactly. -/
theorem claim_C3 (stations : List (ℝ × ℝ))
    (hsort : stations.Pairwise (fun p q => p.1 < q.1)) (h2 : 2 ≤ stations.length)
    (xi di : ℝ) (hmem : (xi, di) ∈ stations) :
    interpolate_dimension xi stations = some di :=
  interpolate_exact stations hsort h2 (xi, di) hmem

/-- C3 witness: the reference table at its last station `(1524, 4.57)`. -/
theorem claim_C3_witness : interpolate_dimension 1524 stations_mm = some 4.57 :=
  claim_C3 stations_mm
    (by norm_num [stations_mm, taper_data, ZOLL_ZU_MM, List.pairwise_cons])
    (by norm_num [stations_mm, taper_data])
    1524 4.57
    (by norm_num [stations_mm, taper_data, ZOLL_ZU_MM])

/-! ### Claim C4 -/

/-- C4: for every table with at least 2 measurements and strictly increasing
positions, interpolation returns a dimension value if and only if the
position lies within `[first station, last station]`; outside that span it
returns `none` rather than extrapolating. -/
theorem claim_C4 (stations : List (ℝ × ℝ))
    (hsort : stations.Pairwise (fun p q => p.1 < q.1)) (h2 : 2 ≤ stations.length)
    (x : ℝ) :
    interpolate_dimension x stations ≠ none ↔
      (stations.head?.getD (0, 0)).1 ≤ x ∧ x ≤ ((stations.getLast?).getD (0, 0)).1 :=
  interpolate_ne_none_iff stations hsort h2 x

/-- C4 witness: the reference table queried at `2000`, outside its span. -/
theorem claim_C4_witness :
    interpolate_dimension 2000 stations_mm ≠ none ↔
      (stations_mm.head?.getD (0, 0)).1 ≤ 2000 ∧
        2000 ≤ ((stations_mm.getLast?).getD (0, 0)).1 :=
  claim_C4 stations_mm
    (by norm_num [stations_mm, taper_data, ZOLL_ZU_MM, List.pairwise_cons])
    (by norm_num [stations_mm, taper_data])
    2000

/-! ### The toolpath build loop -/

theorem build_path_eq_some {stations : List (ℝ × ℝ)} {xt step : ℝ} {hstep : 0 < step}
    {stegs : List ℝ} {x dim : ℝ}
    (hdim : interpolate_dimension (min x xt) stations = some dim) :
    build_path stations xt stegs step hstep x =
      if xt ≤ min x xt then
        [(min x xt,
          -(max 0 (dim / 2 - WANDSTAERKE_MM)) * compute_factor (min x xt) xt stegs)]
      else (min x xt,
          -(max 0 (dim / 2 - WANDSTAERKE_MM)) * compute_factor (min x xt) xt stegs)
        :: build_path stations xt stegs step hstep (min x xt + step) := by
  rw [build_path, hdim]

theorem build_path_eq_none {stations : List (ℝ × ℝ)} {xt step : ℝ} {hstep : 0 < step}
    {stegs : List ℝ} {x : ℝ}
    (hdim : interpolate_dimension (min x xt) stations = none) :
    build_path stations xt stegs step hstep x = [] := by
  rw [build_path, hdim]

theorem build_path_spec (stations : List (ℝ × ℝ)) (xt step : ℝ) (hstep : 0 < step)
    (stegs : List ℝ)
    (hsort : stations.Pairwise (fun p q => p.1 < q.1)) (h2 : 2 ≤ stations.length)
    (hhead : (stations.head?.getD (0, 0)).1 ≤ 0)
    (hlast : xt ≤ ((stations.getLast?).getD (0, 0)).1)
    (hxt : 0 ≤ xt) :
    ∀ (n : ℕ) (x : ℝ), 0 ≤ x → Nat.ceil ((xt - x) / step) = n →
      ((build_path stations xt stegs step hstep x).getLast?).map Prod.fst = some xt ∧
      ∀ p ∈ build_path stations xt stegs step hstep x, ∃ dim,
        interpolate_dimension p.1 stations = some dim ∧
        p.2 = -(max 0 (dim / 2 - WANDSTAERKE_MM)) * compute_factor p.1 xt stegs := by
  intro n
  induction n using Nat.strong_induction_on with
  | _ n ih =>
    intro x hx hn
    have hmin0 : 0 ≤ min x xt := le_min hx hxt
    have hin : interpolate_dimension (min x xt) stations ≠ none := by
      rw [interpolate_ne_none_iff stations hsort h2]
      exact ⟨le_trans hhead hmin0, le_trans (min_le_right x xt) hlast⟩
    obtain ⟨dim, hdim⟩ := Option.ne_none_iff_exists'.mp hin
    rw [build_path_eq_some hdim]
    by_cases hle : xt ≤ min x xt
    · have hmm : min x xt = xt := le_antisymm (min_le_right x xt) hle
      rw [if_pos hle]
      constructor
      · rw [List.getLast?_singleton, Option.map_some', hmm]
      · intro p hp
        rcases List.mem_singleton.mp hp with rfl
        exact ⟨dim, hdim, rfl⟩
    · rw [if_neg hle]
      push_neg at hle
      have hxlt : x < xt := by
        by_contra hc
        push_neg at hc
        rw [min_eq_right hc] at hle
        exact lt_irrefl xt hle
      have hminx : min x xt = x := min_eq_left hxlt.le
      rw [hminx] at hdim hle ⊢
      have hdec : Nat.ceil ((xt - (x + step)) / step) < n := by
        rw [← hn]
        have hrw : (xt - (x + step)) / step = (xt - x) / step - 1 := by
          rw [show xt - (x + step) = (xt - x) - step by ring, sub_div,
            div_self (ne_of_gt hstep)]
        rw [hrw]
        exact ceil_sub_one_lt (div_pos (by linarith) hstep)
      obtain ⟨ihlast, ihmem⟩ := ih _ hdec (x + step) (by linarith) rfl
      constructor
      · cases hrec : build_path stations xt stegs step hstep (x + step) with
        | nil =>
            rw [hrec] at ihlast
            simp at ihlast
        | cons q qs =>
            rw [hrec] at ihlast
            rw [List.getLast?_cons_cons]
            exact ihlast
      · intro p hp
        rcases List.mem_cons.mp hp with rfl | hp'
        · exact ⟨dim, hdim, rfl⟩
        · exact ihmem p hp'

/-! ### Claim C5 -/

/-- C5: for every positive step and total length (spanned by the table), the
toolpath-building loop terminates (it is a total function in this
development, with a termination measure counting the remaining iterations)
and the position of the final emitted depth sample equals `total_length`
exactly — the last step may be shorter than `step` but is never skipped —
and each sample's depth equals
`−max(0, dimension/2 − wall_thickness) × mask(position)`. -/
theorem claim_C5 (stations : List (ℝ × ℝ)) (xt step : ℝ) (hstep : 0 < step)
    (stegs : List ℝ)
    (hsort : stations.Pairwise (fun p q => p.1 < q.1)) (h2 : 2 ≤ stations.length)
    (hhead : (stations.head?.getD (0, 0)).1 ≤ 0)
    (hlast : xt ≤ ((stations.getLast?).getD (0, 0)).1)
    (hxt : 0 ≤ xt) :
    ((build_path stations xt stegs step hstep 0).getLast?).map Prod.fst = some xt ∧
    ∀ p ∈ build_path stations xt stegs step hstep 0, ∃ dim,
      interpolate_dimension p.1 stations = some dim ∧
      p.2 = -(max 0 (dim / 2 - WANDSTAERKE_MM)) * compute_factor p.1 xt stegs :=
  build_path_spec stations xt step hstep stegs hsort h2 hhead hlast hxt
    (Nat.ceil ((xt - 0) / step)) 0 (le_refl 0) rfl

/-- C5 witness: a two-station table spanning `[0, 5]` sampled with step `2`
(so the last step is shorter); the final sample lands exactly on `5`. -/
theorem claim_C5_witness :
    ((build_path [((0:ℝ), (10:ℝ)), (5, 20)] 5 [] 2 (by norm_num) 0).getLast?).map Prod.fst
      = some 5 :=
  (claim_C5 [((0:ℝ), (10:ℝ)), (5, 20)] 5 2 (by norm_num) []
    (by norm_num [List.pairwise_cons]) (by norm_num) (by norm_num) (by norm_num)
    (by norm_num)).1

/-! ### Claim C8 -/

/-- C8: during profile building with a table spanning `[0, x_total]`, every
sampled position passed to the interpolator — always of the form
`min x x_total` for a start `x ≥ 0` — lies within the table span, so the
interpolator never returns out-of-range and the builder's break-on-`none`
branch is unreachable. -/
theorem claim_C8 (stations : List (ℝ × ℝ)) (xt : ℝ)
    (hsort : stations.Pairwise (fun p q => p.1 < q.1)) (h2 : 2 ≤ stations.length)
    (hhead : (stations.head?.getD (0, 0)).1 ≤ 0)
    (hlast : xt ≤ ((stations.getLast?).getD (0, 0)).1)
    (hxt : 0 ≤ xt) (x : ℝ) (hx : 0 ≤ x) :
    (stations.head?.getD (0, 0)).1 ≤ min x xt ∧
      min x xt ≤ ((stations.getLast?).getD (0, 0)).1 ∧
      interpolate_dimension (min x xt) stations ≠ none := by
  have h1 : (stations.head?.getD (0, 0)).1 ≤ min x xt :=
    le_min (le_trans hhead hx) (le_trans hhead hxt)
  have h2' : min x xt ≤ ((stations.getLast?).getD (0, 0)).1 :=
    le_trans (min_le_right x xt) hlast
  exact ⟨h1, h2', (interpolate_ne_none_iff stations hsort h2 (min x xt)).mpr ⟨h1, h2'⟩⟩

/-- C8 witness: the reference table with `x_total = 1524`, sampling start
`2000` (clamped to the span). -/
theorem claim_C8_witness :
    (stations_mm.head?.getD (0, 0)).1 ≤ min 2000 x_total ∧
      min 2000 x_total ≤ ((stations_mm.getLast?).getD (0, 0)).1 ∧
      interpolate_dimension (min 2000 x_total) stations_mm ≠ none :=
  claim_C8 stations_mm x_total
    (by norm_num [stations_mm, taper_data, ZOLL_ZU_MM, List.pairwise_cons])
    (by norm_num [stations_mm, taper_data])
    (by norm_num [stations_mm, taper_data, ZOLL_ZU_MM])
    (by norm_num [x_total, stations_mm, taper_data, ZOLL_ZU_MM])
    (by rw [x_total_eq]; norm_num)
    2000 (by norm_num)

/-! ### Claim C6 -/

/-- Cutting-move (`G1`) test on a hollowing directive. -/
def is_cut_move : HDirective → Bool
  | HDirective.feedZ _ _ => true
  | HDirective.feedXZ _ _ _ => true
  | _ => false

theorem gcode_loop_suppressed : ∀ (p : List (ℝ × ℝ)),
    (∀ s ∈ p, ¬(s.2 < -0.01)) → gcode_loop p false = []
  | [] => by intro _; rfl
  | ⟨sx, sz⟩ :: rest => by
      intro h
      have hz : ¬(sz < -0.01) := h (sx, sz) (List.mem_cons_self _ _)
      simp only [gcode_loop]
      rw [if_neg hz, if_neg (by simp)]
      exact gcode_loop_suppressed rest fun s hs => h s (List.mem_cons_of_mem _ hs)

/-- C6: for a depth-sample sequence in which every sample is fully
suppressed (no depth exceeds the engagement tolerance `0.01`), the emitted
motion-directive stream is exactly the initial rapid positioning
(`G0 Z…`, `G0 X0`) followed by the final retract (`G0 Z…`, `G0 X0`, `M2`),
with zero cutting moves — a valid stream, not an error. -/
theorem claim_C6 (p : List (ℝ × ℝ)) (h : ∀ s ∈ p, ¬(s.2 < -0.01)) :
    emit_gcode p = [HDirective.rapidZ Z_RAPID, HDirective.rapidX 0,
      HDirective.rapidZ Z_RAPID, HDirective.rapidX 0, HDirective.programEnd] ∧
    (emit_gcode p).countP is_cut_move = 0 := by
  have hloop := gcode_loop_suppressed p h
  constructor
  · rw [emit_gcode, hloop]
    rfl
  · rw [emit_gcode, hloop]
    rfl

/-- C6 witness: the all-suppressed single-sample profile `[(0, 0)]`. -/
theorem claim_C6_witness :
    emit_gcode [((0:ℝ), (0:ℝ))] = [HDirective.rapidZ Z_RAPID, HDirective.rapidX 0,
      HDirective.rapidZ Z_RAPID, HDirective.rapidX 0, HDirective.programEnd] ∧
    (emit_gcode [((0:ℝ), (0:ℝ))]).countP is_cut_move = 0 :=
  claim_C6 [((0:ℝ), (0:ℝ))] (by intro s hs; rcases List.mem_singleton.mp hs with rfl; norm_num)

/-! ### Claim C7 -/

theorem steg_loop_mem_mp (e : ℝ) : ∀ (n : ℕ) (x : ℝ),
    Nat.ceil ((e - x) / STEG_ABSTAND_MM) = n → ∀ y ∈ steg_loop e x,
    ∃ k : ℕ, y = x + (k : ℝ) * STEG_ABSTAND_MM ∧ y < e := by
  intro n
  induction n using Nat.strong_induction_on with
  | _ n ih =>
    intro x hn y hy
    have hS : (0:ℝ) < STEG_ABSTAND_MM := by norm_num [STEG_ABSTAND_MM]
    by_cases hlt : x < e
    · rw [steg_loop_pos hlt] at hy
      rcases List.mem_cons.mp hy with rfl | hy'
      · exact ⟨0, by push_cast; ring, hlt⟩
      · have hdec : Nat.ceil ((e - (x + STEG_ABSTAND_MM)) / STEG_ABSTAND_MM) < n := by
          rw [← hn]
          have hrw : (e - (x + STEG_ABSTAND_MM)) / STEG_ABSTAND_MM
              = (e - x) / STEG_ABSTAND_MM - 1 := by
            rw [show e - (x + STEG_ABSTAND_MM) = (e - x) - STEG_ABSTAND_MM by ring,
              sub_div, div_self (ne_of_gt hS)]
          rw [hrw]
          exact ceil_sub_one_lt (div_pos (by linarith) hS)
        obtain ⟨k, hk1, hk2⟩ := ih _ hdec (x + STEG_ABSTAND_MM) rfl y hy'
        exact ⟨k + 1, by push_cast at hk1 ⊢; linarith [hk1], hk2⟩
    · rw [steg_loop_neg hlt] at hy
      exact absurd hy (List.not_mem_nil y)

theorem steg_loop_mem_mpr (e : ℝ) : ∀ (k : ℕ) (x : ℝ),
    x + (k : ℝ) * STEG_ABSTAND_MM < e → (x + (k : ℝ) * STEG_ABSTAND_MM) ∈ steg_loop e x
  | 0 => by
      intro x h
      push_cast at h ⊢
      rw [zero_mul, add_zero] at h ⊢
      rw [steg_loop_pos h]
      exact List.mem_cons_self _ _
  | k + 1 => by
      intro x h
      have hS : (0:ℝ) < STEG_ABSTAND_MM := by norm_num [STEG_ABSTAND_MM]
      have hxe : x < e := by
        have : (0:ℝ) ≤ ((k:ℝ) + 1) * STEG_ABSTAND_MM :=
          mul_nonneg (by positivity) hS.le
        push_cast at h
        linarith
      rw [steg_loop_pos hxe]
      have harg : x + ((k:ℕ) + 1 : ℕ) * STEG_ABSTAND_MM
          = (x + STEG_ABSTAND_MM) + (k : ℝ) * STEG_ABSTAND_MM := by
        push_cast
        ring
      rw [harg]
      exact List.mem_cons_of_mem _ (steg_loop_mem_mpr e k (x + STEG_ABSTAND_MM) (by
        rw [← harg]
        exact h))

theorem steg_loop_get : ∀ (k : ℕ) (e x : ℝ), k < (steg_loop e x).length →
    (steg_loop e x)[k]? = some (x + (k : ℝ) * STEG_ABSTAND_MM)
  | 0 => by
      intro e x hk
      have hlt : x < e := by
        by_contra hc
        rw [steg_loop_neg hc] at hk
        simp at hk
      rw [steg_loop_pos hlt, List.getElem?_cons_zero]
      push_cast
      rw [zero_mul, add_zero]
  | k + 1 => by
      intro e x hk
      have hlt : x < e := by
        by_contra hc
        rw [steg_loop_neg hc] at hk
        simp at hk
      rw [steg_loop_pos hlt] at hk
      simp only [List.length_cons] at hk
      rw [steg_loop_pos hlt, List.getElem?_cons_succ,
        steg_loop_get k e (x + STEG_ABSTAND_MM) (by omega)]
      push_cast
      ring_nf

/-- C7: the interior glue-land centers are computed once, before any
sampling, as `start + pitch, start + 2×pitch, …`: the `k`-th computed
center equals `start + (k+1)×pitch` exactly, and a value is in the list if
and only if it is of that form and strictly less than the hollow region's
end boundary (total length minus butt solid length) — the count is derived
from the geometry. -/
theorem claim_C7 (xt : ℝ) :
    (∀ k : ℕ, k < (compute_steg_positions xt).length →
      (compute_steg_positions xt)[k]?
        = some (TIP_SOLID_MM + ((k : ℝ) + 1) * STEG_ABSTAND_MM)) ∧
    (∀ c : ℝ, c ∈ compute_steg_positions xt ↔
      ∃ k : ℕ, c = TIP_SOLID_MM + ((k : ℝ) + 1) * STEG_ABSTAND_MM
        ∧ c < xt - BUTT_SOLID_MM) := by
  constructor
  · intro k hk
    rw [compute_steg_positions] at hk ⊢
    rw [steg_loop_get k (xt - BUTT_SOLID_MM) (TIP_SOLID_MM + STEG_ABSTAND_MM) hk]
    congr 1
    ring
  · intro c
    rw [compute_steg_positions]
    constructor
    · intro hc
      obtain ⟨k, hk1, hk2⟩ := steg_loop_mem_mp (xt - BUTT_SOLID_MM)
        (Nat.ceil ((xt - BUTT_SOLID_MM - (TIP_SOLID_MM + STEG_ABSTAND_MM))
          / STEG_ABSTAND_MM)) (TIP_SOLID_MM + STEG_ABSTAND_MM) rfl c hc
      exact ⟨k, by rw [hk1]; ring, hk2⟩
    · rintro ⟨k, rfl, hlt⟩
      have harg : TIP_SOLID_MM + ((k : ℝ) + 1) * STEG_ABSTAND_MM
          = (TIP_SOLID_MM + STEG_ABSTAND_MM) + (k : ℝ) * STEG_ABSTAND_MM := by ring
      rw [harg] at hlt ⊢
      exact steg_loop_mem_mpr (xt - BUTT_SOLID_MM) k (TIP_SOLID_MM + STEG_ABSTAND_MM) hlt

/-- C7 witness: the first computed center of the reference geometry,
`80 + 150 = 230`, lies in the list for `xt = 1524`. -/
theorem claim_C7_witness : (230:ℝ) ∈ compute_steg_positions 1524 :=
  ((claim_C7 1524).2 230).mpr
    ⟨0, by norm_num [TIP_SOLID_MM, STEG_ABSTAND_MM], by norm_num [BUTT_SOLID_MM]⟩

/-! ### Turning variant: the rotary coordinate accumulates monotonically -/

theorem pass_loop_aux (typ : GriffTyp) (fixed_r : Option ℝ) : ∀ (n : ℕ) (x a : ℝ),
    Nat.ceil (X_START_MM + GRIFF_LAENGE_MM - x) = n →
    ((pass_loop typ fixed_r x a).1.filterMap turningA).Pairwise (· < ·) ∧
    (∀ v ∈ (pass_loop typ fixed_r x a).1.filterMap turningA,
      a < v ∧ v ≤ (pass_loop typ fixed_r x a).2) ∧
    a < (pass_loop typ fixed_r x a).2 := by
  intro n
  induction n using Nat.strong_induction_on with
  | _ n ih =>
    intro x a hn
    have hA : (0:ℝ) < 360 * ROTATIONS_PER_MM * SCHRITT_MM := by
      norm_num [ROTATIONS_PER_MM, SCHRITT_MM]
    by_cases hle : X_START_MM + GRIFF_LAENGE_MM ≤ min x (X_START_MM + GRIFF_LAENGE_MM)
    · rw [pass_loop.eq_def, if_pos hle]
      simp only [List.filterMap_cons, turningA, List.filterMap_nil]
      refine ⟨List.pairwise_singleton _ _, ?_,
        show a < a + 360 * ROTATIONS_PER_MM * SCHRITT_MM by linarith⟩
      intro v hv
      rcases List.mem_singleton.mp hv with rfl
      exact ⟨by linarith, le_refl _⟩
    · rw [pass_loop.eq_def, if_neg hle]
      rw [not_le] at hle
      have hxlt : x < X_START_MM + GRIFF_LAENGE_MM := by
        by_contra hc
        push_neg at hc
        rw [min_eq_right hc] at hle
        exact lt_irrefl _ hle
      have hminx : min x (X_START_MM + GRIFF_LAENGE_MM) = x := min_eq_left hxlt.le
      have hdec : Nat.ceil (X_START_MM + GRIFF_LAENGE_MM
          - (min x (X_START_MM + GRIFF_LAENGE_MM) + SCHRITT_MM)) < n := by
        rw [← hn, hminx]
        have hrw : X_START_MM + GRIFF_LAENGE_MM - (x + SCHRITT_MM)
            = (X_START_MM + GRIFF_LAENGE_MM - x) - 1 := by
          norm_num [SCHRITT_MM]
          ring
        rw [hrw]
        exact ceil_sub_one_lt (by linarith)
      obtain ⟨ihp, ihmem, ihlt⟩ := ih _ hdec
        (min x (X_START_MM + GRIFF_LAENGE_MM) + SCHRITT_MM)
        (a + 360 * ROTATIONS_PER_MM * SCHRITT_MM) rfl
      simp only [List.filterMap_cons, turningA]
      refine ⟨?_, ?_, ?_⟩
      · rw [List.pairwise_cons]
        exact ⟨fun v hv => (ihmem v hv).1, ihp⟩
      · intro v hv
        rcases List.mem_cons.mp hv with rfl | hv'
        · exact ⟨by linarith, le_of_lt ihlt⟩
        · obtain ⟨h1, h2⟩ := ihmem v hv'
          exact ⟨by linarith, h2⟩
      · show a < (pass_loop typ fixed_r (min x (X_START_MM + GRIFF_LAENGE_MM) + SCHRITT_MM)
          (a + 360 * ROTATIONS_PER_MM * SCHRITT_MM)).2
        linarith

theorem passes_loop_aux (typ : GriffTyp) : ∀ (frs : List (Option ℝ)) (a : ℝ),
    ((passes_loop typ frs a).1.filterMap turningA).Pairwise (· < ·) ∧
    (∀ v ∈ (passes_loop typ frs a).1.filterMap turningA,
      a < v ∧ v ≤ (passes_loop typ frs a).2) ∧
    a ≤ (passes_loop typ frs a).2 := by
  intro frs
  induction frs with
  | nil =>
      intro a
      simp only [passes_loop, List.filterMap_nil]
      exact ⟨List.Pairwise.nil, fun v hv => absurd hv (List.not_mem_nil v), le_refl a⟩
  | cons fr rest ih =>
      intro a
      obtain ⟨hp1, hmem1, hlt1⟩ := pass_loop_aux typ fr
        (Nat.ceil (X_START_MM + GRIFF_LAENGE_MM - X_START_MM)) X_START_MM a rfl
      obtain ⟨hp2, hmem2, hle2⟩ := ih (pass_loop typ fr X_START_MM a).2
      simp only [passes_loop, List.filterMap_append, List.filterMap_cons, turningA,
        List.filterMap_nil, List.nil_append, List.append_nil]
      refine ⟨?_, ?_, ?_⟩
      · rw [List.pairwise_append]
        exact ⟨hp1, hp2, fun u hu v hv =>
          lt_of_le_of_lt (hmem1 u hu).2 (hmem2 v hv).1⟩
      · intro v hv
        rcases List.mem_append.mp hv with hv' | hv'
        · obtain ⟨h1, h2⟩ := hmem1 v hv'
          exact ⟨h1, le_trans h2 hle2⟩
        · obtain ⟨h1, h2⟩ := hmem2 v hv'
          exact ⟨lt_of_lt_of_le hlt1 h1.le, h2⟩
      · exact le_trans hlt1.le hle2

/-- Absolute indexing angles of a polygon program over a generic face list. -/
theorem polygon_flatMap_angles (sektor z_entry z_cut : ℝ) : ∀ (l : List ℕ),
    (l.flatMap (fun face =>
      [GDirective.rapidZ Z_FREIFAHRT,
       GDirective.rapidA ((face : ℝ) * sektor),
       GDirective.rapidX X_START_MM,
       GDirective.cutZ z_entry ((FEED_CUT / 2 : ℕ) : ℝ),
       GDirective.cutZ z_cut ((FEED_CUT / 3 : ℕ) : ℝ),
       GDirective.cutX (X_START_MM + GRIFF_LAENGE_MM) (FEED_CUT : ℝ)])).filterMap indexA
      = l.map (fun face => (face : ℝ) * sektor) := by
  intro l
  induction l with
  | nil => rfl
  | cons f fs ih =>
      simp only [List.flatMap_cons, List.filterMap_append, List.filterMap_cons, indexA,
        List.filterMap_nil, List.map_cons]
      rw [ih]
      rfl

theorem generate_polygon_indexA (seiten : ℕ) :
    (generate_polygon seiten).filterMap indexA
      = (List.range seiten).map (fun k => (k : ℝ) * (360 / (seiten : ℝ))) := by
  rw [generate_polygon]
  simp only [List.filterMap_append, List.filterMap_cons, indexA, List.filterMap_nil,
    List.nil_append, List.append_nil]
  exact polygon_flatMap_angles (360 / (seiten : ℝ))
    (z_for_radius ROHLING_RADIUS)
    (z_for_radius (POLYGON_UMKREIS * Real.cos (Real.pi / (seiten : ℝ))))
    (List.range seiten)

/-! ### Claim C9 -/

/-- C9: in the continuous-turning variant (cylindrical or conical) the
rotary A coordinate of the emitted linear moves is strictly increasing
across the entire program — it accumulates monotonically across every
roughing pass and the finishing pass and is never reset — whereas the
polygon-indexing variant emits discrete absolute angular positions, one per
face (`face k` at `k × 360/N` degrees), with no accumulation. -/
theorem claim_C9 :
    (∀ typ : GriffTyp,
      ((generate_turning typ).filterMap turningA).Pairwise (· < ·)) ∧
    (∀ seiten : ℕ,
      (generate_polygon seiten).filterMap indexA
        = (List.range seiten).map (fun k => (k : ℝ) * (360 / (seiten : ℝ)))) := by
  constructor
  · intro typ
    rw [generate_turning]
    simp only [List.filterMap_append, List.filterMap_cons, turningA, List.filterMap_nil,
      List.nil_append, List.append_nil]
    exact (passes_loop_aux typ (roughing_steps (target_radius typ)) 0).1
  · exact generate_polygon_indexA

/-! ### Claim C10 -/

/-- Mill-face move (`G1 X… F…`) test on a grip directive. -/
def is_mill_face : GDirective → Bool
  | GDirective.cutX _ _ => true
  | _ => false

/-- The `(z, feed)` view of a plunge/approach move (`G1 Z… F…`). -/
def cutZview : GDirective → Option (ℝ × ℝ)
  | GDirective.cutZ z f => some (z, f)
  | _ => none

theorem polygon_flatMap_cutZ (sektor z_entry z_cut : ℝ) : ∀ (l : List ℕ),
    ((l.flatMap (fun face =>
      [GDirective.rapidZ Z_FREIFAHRT,
       GDirective.rapidA ((face : ℝ) * sektor),
       GDirective.rapidX X_START_MM,
       GDirective.cutZ z_entry ((FEED_CUT / 2 : ℕ) : ℝ),
       GDirective.cutZ z_cut ((FEED_CUT / 3 : ℕ) : ℝ),
       GDirective.cutX (X_START_MM + GRIFF_LAENGE_MM) (FEED_CUT : ℝ)])).filterMap cutZview)
      = l.flatMap (fun _ =>
          [(z_entry, ((FEED_CUT / 2 : ℕ) : ℝ)), (z_cut, ((FEED_CUT / 3 : ℕ) : ℝ))]) := by
  intro l
  induction l with
  | nil => rfl
  | cons f fs ih =>
      simp only [List.flatMap_cons, List.filterMap_append, List.filterMap_cons, cutZview,
        List.filterMap_nil]
      rw [ih]

theorem polygon_flatMap_count (sektor z_entry z_cut : ℝ) : ∀ (l : List ℕ),
    ((l.flatMap (fun face =>
      [GDirective.rapidZ Z_FREIFAHRT,
       GDirective.rapidA ((face : ℝ) * sektor),
       GDirective.rapidX X_START_MM,
       GDirective.cutZ z_entry ((FEED_CUT / 2 : ℕ) : ℝ),
       GDirective.cutZ z_cut ((FEED_CUT / 3 : ℕ) : ℝ),
       GDirective.cutX (X_START_MM + GRIFF_LAENGE_MM) (FEED_CUT : ℝ)])).countP is_mill_face)
      = l.length := by
  intro l
  induction l with
  | nil => rfl
  | cons f fs ih =>
      simp only [List.flatMap_cons, List.countP_append, List.length_cons]
      rw [ih]
      simp [List.countP_cons, is_mill_face]
      omega

/-- C10: in the polygon variant exactly `N = POLYGON_SEITEN` faces are
milled; face `k` is indexed to the absolute angle `k × (360/N)` degrees;
and every face's plunge targets the same Z coordinate,
`z_for_radius(inradius)` with `inradius = circumradius × cos(π/N)` — the
flat-face depth, which is strictly less than the circumradius offset
`z_for_radius(circumradius)`. -/
theorem claim_C10 :
    ((generate_polygon POLYGON_SEITEN).countP is_mill_face) = POLYGON_SEITEN ∧
    (generate_polygon POLYGON_SEITEN).filterMap indexA
      = (List.range POLYGON_SEITEN).map
          (fun k => (k : ℝ) * (360 / (POLYGON_SEITEN : ℝ))) ∧
    (generate_polygon POLYGON_SEITEN).filterMap cutZview
      = (List.range POLYGON_SEITEN).flatMap (fun _ =>
          [(z_for_radius ROHLING_RADIUS, ((FEED_CUT / 2 : ℕ) : ℝ)),
           (z_for_radius (POLYGON_UMKREIS * Real.cos (Real.pi / (POLYGON_SEITEN : ℝ))),
            ((FEED_CUT / 3 : ℕ) : ℝ))]) ∧
    z_for_radius (POLYGON_UMKREIS * Real.cos (Real.pi / (POLYGON_SEITEN : ℝ)))
      < z_for_radius POLYGON_UMKREIS := by
  have hpi := Real.pi_pos
  refine ⟨?_, generate_polygon_indexA POLYGON_SEITEN, ?_, ?_⟩
  · rw [generate_polygon]
    simp only [List.countP_append, List.countP_cons, is_mill_face, List.countP_nil]
    rw [polygon_flatMap_count (360 / (POLYGON_SEITEN : ℝ))
      (z_for_radius ROHLING_RADIUS)
      (z_for_radius (POLYGON_UMKREIS * Real.cos (Real.pi / (POLYGON_SEITEN : ℝ))))
      (List.range POLYGON_SEITEN)]
    simp [List.length_range]
  · rw [generate_polygon]
    simp only [List.filterMap_append, List.filterMap_cons, cutZview, List.filterMap_nil,
      List.nil_append, List.append_nil]
    exact polygon_flatMap_cutZ (360 / (POLYGON_SEITEN : ℝ))
      (z_for_radius ROHLING_RADIUS)
      (z_for_radius (POLYGON_UMKREIS * Real.cos (Real.pi / (POLYGON_SEITEN : ℝ))))
      (List.range POLYGON_SEITEN)
  · rw [z_for_radius, z_for_radius]
    have h8 : ((POLYGON_SEITEN : ℕ) : ℝ) = 8 := by norm_num [POLYGON_SEITEN]
    rw [h8]
    have hmem0 : (0:ℝ) ∈ Set.Icc 0 Real.pi := ⟨le_refl 0, hpi.le⟩
    have hmem8 : Real.pi / 8 ∈ Set.Icc 0 Real.pi := ⟨by positivity, by linarith⟩
    have hcos : Real.cos (Real.pi / 8) < Real.cos 0 :=
      Real.strictAntiOn_cos hmem0 hmem8 (by positivity)
    rw [Real.cos_zero] at hcos
    have hP : (0:ℝ) < POLYGON_UMKREIS := by norm_num [POLYGON_UMKREIS]
    nlinarith
